import Mathlib

/-!
Verification of the static narrative-graph and reference-integrity checker
of the visual-novel repository.  The checker lives in the regression-test
module: regex scanners extract labels, jump/call targets, style
declarations and interpolations from the script text; a partitioner slices
the script into label blocks; a bounded walk simulates play-throughs; and
a small generator emits placeholder PNG files.  Text is modelled as
`List Char`; each regex of the source is embedded as an explicit scanner
with the same matching semantics (left-to-right, non-overlapping, with the
anchoring of the original pattern).  All scanners take their fuel from the
length of the scanned text, so every definition is executable.
-/

namespace VN

/-- Python regex character class \s restricted to ASCII:
space, tab, newline, carriage return, vertical tab, form feed. -/
def isSpaceChar (c : Char) : Bool :=
  c == ' ' || c == '\t' || c == '\n' || c == '\r' || c == '\x0b' || c == '\x0c'

/-- Python regex character class \w restricted to ASCII:
letters, digits and underscore. -/
def isWordChar (c : Char) : Bool :=
  c.isAlphanum || c == '_'

/-- Unanchored regex scan, the semantics of re.findall without anchors:
the matcher is tried at every position from left to right and successful
matches do not overlap (scanning resumes after each match).  Fuel is the
length of the scanned text; every successful match consumes at least one
character, so this fuel is always sufficient. -/
def plainScanAux (f : List Char → Option (α × List Char)) : Nat → List Char → List α
  | 0, _ => []
  | _ + 1, [] => []
  | fuel + 1, c :: rest =>
    match f (c :: rest) with
    | some (a, r) => a :: plainScanAux f fuel r
    | none => plainScanAux f fuel rest

def plainScan (f : List Char → Option (α × List Char)) (l : List Char) : List α :=
  plainScanAux f l.length l

/-- Line-anchored regex scan, the semantics of re.findall with re.MULTILINE
for a pattern starting with ^: the matcher is tried at position 0 and right
after every newline character. -/
def anchoredScanAux (f : List Char → Option (α × List Char)) :
    Nat → List Char → Bool → List α
  | 0, _, _ => []
  | _ + 1, [], _ => []
  | fuel + 1, c :: rest, atStart =>
    if atStart then
      match f (c :: rest) with
      | some (a, r) => a :: anchoredScanAux f fuel r false
      | none => anchoredScanAux f fuel rest (c == '\n')
    else anchoredScanAux f fuel rest (c == '\n')

def anchoredScan (f : List Char → Option (α × List Char)) (l : List Char) : List α :=
  anchoredScanAux f l.length l true

/-- Matcher for the unanchored pattern jump\s+(\w+) at the current
position: the literal "jump", one or more whitespace characters, then the
captured run of word characters.  Returns the capture and the rest of the
text after the match. -/
def matchJumpAt (l : List Char) : Option (List Char × List Char) :=
  if "jump".data.isPrefixOf l then
    let r0 := l.drop 4
    if (r0.takeWhile isSpaceChar).isEmpty then none
    else
      let r1 := r0.dropWhile isSpaceChar
      let w := r1.takeWhile isWordChar
      if w.isEmpty then none else some (w, r1.dropWhile isWordChar)
  else none

/-- re.findall(r'jump\s+(\w+)', text): the jump-target extraction used by
the label-integrity check, the story-graph builder and the path walk.
The pattern is not anchored to line starts. -/
def findJumpTargets (l : List Char) : List (List Char) :=
  plainScan matchJumpAt l

/-- Matcher for ^label\s+(\w+)\s*: at a line-start position.  Returns the
captured label name and the rest of the text after the colon. -/
def matchLabelAt (l : List Char) : Option (List Char × List Char) :=
  if "label".data.isPrefixOf l then
    let r0 := l.drop 5
    if (r0.takeWhile isSpaceChar).isEmpty then none
    else
      let r1 := r0.dropWhile isSpaceChar
      let w := r1.takeWhile isWordChar
      if w.isEmpty then none
      else
        match (r1.dropWhile isWordChar).dropWhile isSpaceChar with
        | ':' :: r4 => some (w, r4)
        | _ => none
  else none

/-- re.finditer(r'^label\s+(\w+)\s*:', script, re.MULTILINE), keeping both
the match start offset and the captured name, exactly as the block
partitioner records them.  The matcher is tried at position 0 and after
every newline; after a successful match scanning resumes right after the
colon (which is never a newline, so the next position is mid-line). -/
def labelScanAux : Nat → List Char → Nat → Bool → List (Nat × List Char)
  | 0, _, _, _ => []
  | _ + 1, [], _, _ => []
  | fuel + 1, c :: rest, pos, atStart =>
    if atStart then
      match matchLabelAt (c :: rest) with
      | some (w, r) =>
        (pos, w) :: labelScanAux fuel r (pos + ((c :: rest).length - r.length)) false
      | none => labelScanAux fuel rest (pos + 1) (c == '\n')
    else labelScanAux fuel rest (pos + 1) (c == '\n')

def labelStartsOf (s : List Char) : List (Nat × List Char) :=
  labelScanAux s.length s 0 true

/-- Matcher for ^\s+call\s+(\w+) at a line-start position: leading
whitespace (at least one character, possibly spanning blank lines), the
literal "call", whitespace, then the captured word. -/
def matchCallAt (l : List Char) : Option (List Char × List Char) :=
  if (l.takeWhile isSpaceChar).isEmpty then none
  else
    match l.dropWhile isSpaceChar with
    | 'c' :: 'a' :: 'l' :: 'l' :: r1 =>
      if (r1.takeWhile isSpaceChar).isEmpty then none
      else
        let r2 := r1.dropWhile isSpaceChar
        let w := r2.takeWhile isWordChar
        if w.isEmpty then none else some (w, r2.dropWhile isWordChar)
    | _ => none

/-- Matcher for ^\s+return\s*$ (re.MULTILINE) at a line-start position.
After the literal "return", the trailing \s*$ succeeds when the following
whitespace run reaches the end of the text, or contains a newline before
which the $ anchor can match. -/
def matchReturnAt (l : List Char) : Option (Unit × List Char) :=
  if (l.takeWhile isSpaceChar).isEmpty then none
  else
    match l.dropWhile isSpaceChar with
    | 'r' :: 'e' :: 't' :: 'u' :: 'r' :: 'n' :: r1 =>
      if (r1.takeWhile isSpaceChar).contains '\n' || (r1.dropWhile isSpaceChar).isEmpty then
        some ((), r1)
      else none
    | _ => none

/-- bool(re.search(r'^\s+return\s*$', content, re.MULTILINE)): whether the
block contains a terminal return marker line. -/
def hasReturnMarker (content : List Char) : Bool :=
  !(anchoredScan matchReturnAt content).isEmpty

/-- Substring containment, the semantics of the Python `in` operator. -/
def containsSub (pat : List Char) : List Char → Bool
  | [] => pat.isEmpty
  | c :: rest => pat.isPrefixOf (c :: rest) || containsSub pat rest

/-- "menu:" in content — the decision-point test of the path walk. -/
def hasMenu (content : List Char) : Bool :=
  containsSub "menu:".data content

/-- The apostrophe character, used by the not-found error message. -/
def apos : Char := Char.ofNat 39

/-- The error value returned when the step budget is exhausted. -/
def maxStepsMsg : List Char := "Max steps exceeded".data

/-- The error value returned when a walk reaches an undefined label. -/
def labelNotFoundMsg (current : List Char) : List Char :=
  "Label ".data ++ (apos :: current) ++ (apos :: " not found".data)

/-- The hard step budget of the path walk. -/
def maxSteps : Nat := 50

/-- The loop body of TestEndToEndPaths._walk_path.  At each step: an
undefined current label aborts with an error; a block without jump targets
stops, terminating iff the block has a return marker; otherwise, when the
block contains "menu:" and choices remain, the next node is the next
choice, else it is the last jump target of the block; the next node is
appended to the visited sequence.  When the budget runs out the walk
reports the max-steps error with a false termination flag. -/
def walkLoop (labels : List (List Char × List Char)) (choices : List (List Char)) :
    Nat → List (List Char) → List Char → Nat →
      List (List Char) × Bool × Option (List Char)
  | 0, visited, _, _ => (visited, false, some maxStepsMsg)
  | fuel + 1, visited, current, choiceIdx =>
    match labels.lookup current with
    | none => (visited, false, some (labelNotFoundMsg current))
    | some content =>
      match findJumpTargets content with
      | [] => (visited, hasReturnMarker content, none)
      | j :: js =>
        if hasMenu content = true ∧ choiceIdx < choices.length then
          walkLoop labels choices fuel (visited ++ [choices.getD choiceIdx []])
            (choices.getD choiceIdx []) (choiceIdx + 1)
        else
          walkLoop labels choices fuel
            (visited ++ [(j :: js).getLast (List.cons_ne_nil j js)])
            ((j :: js).getLast (List.cons_ne_nil j js)) choiceIdx

/-- TestEndToEndPaths._walk_path(start_label, choices). -/
def walkPath (labels : List (List Char × List Char)) (startLabel : List Char)
    (choices : List (List Char)) :
    List (List Char) × Bool × Option (List Char) :=
  walkLoop labels choices maxSteps [startLabel] startLabel 0

/-- The label names extracted from a corpus text by
re.findall(r'^label\s+(\w+)\s*:', text, re.MULTILINE). -/
def definedLabelNames (t : List Char) : List (List Char) :=
  (labelStartsOf t).map Prod.snd

/-- The stop-list subtracted from the call targets by the label-integrity
check (common prose words matched by the generic call pattern). -/
def callStopList : List (List Char) :=
  ["me", "after", "it", "the", "this", "that", "them"].map String.data

/-- re.findall(r'^\s+call\s+(\w+)', text, re.MULTILINE). -/
def rawCallTargets (t : List Char) : List (List Char) :=
  anchoredScan matchCallAt t

/-- The call-target reference set after removing the stop-list. -/
def callTargets (t : List Char) : List (List Char) :=
  (rawCallTargets t).filter (fun w => decide (w ∉ callStopList))

/-- The violation set of test_all_jump_targets_exist:
jump targets with no matching label definition in the corpus. -/
def missingJumpTargets (t : List Char) : List (List Char) :=
  (findJumpTargets t).filter (fun w => decide (w ∉ definedLabelNames t))

/-- The violation set of test_all_call_targets_exist:
call targets (stop-list removed) with no matching label definition. -/
def missingCallTargets (t : List Char) : List (List Char) :=
  (callTargets t).filter (fun w => decide (w ∉ definedLabelNames t))

/-- Word-boundary test of \b before a character: the previous character
(none at the start of the text) must not be a word character, given that
the next character is one. -/
def boundaryOk : Option Char → Bool
  | none => true
  | some p => !isWordChar p

/-- bool(re.search(r'\bjump\s+\w+', content)): scan every position,
remembering the previous character for the word-boundary test. -/
def wbJumpAux : Nat → Option Char → List Char → Bool
  | 0, _, _ => false
  | _ + 1, _, [] => false
  | fuel + 1, prev, c :: rest =>
    (boundaryOk prev && (matchJumpAt (c :: rest)).isSome) || wbJumpAux fuel (some c) rest

def hasWordBoundaryJump (content : List Char) : Bool :=
  wbJumpAux content.length none content

/-- test_no_dead_end_labels flags a block exactly when it has neither a
word-boundary jump occurrence nor a return marker line. -/
def deadEndFlag (content : List Char) : Bool :=
  !(hasWordBoundaryJump content || hasReturnMarker content)

/-- The BASE_TO_GUI table of TestNoRecursiveStyles: each base style paired
with the gui_ variant that it must never declare as its parent. -/
def baseToGui : List (List Char × List Char) :=
  [("bar", "gui_bar"), ("vbar", "gui_vbar"), ("scrollbar", "gui_scrollbar"),
   ("vscrollbar", "gui_vscrollbar"), ("slider", "gui_slider"),
   ("vslider", "gui_vslider"), ("button", "gui_button"),
   ("label", "gui_label"), ("frame", "gui_frame")].map
    (fun p => (p.1.data, p.2.data))

/-- Matcher for ^style\s+<base>\s+is\s+<gui>\b at a line-start position. -/
def matchStyleIsAt (base gui : List Char) (l : List Char) : Option (Unit × List Char) :=
  if "style".data.isPrefixOf l then
    let r0 := l.drop 5
    if (r0.takeWhile isSpaceChar).isEmpty then none
    else
      let r1 := r0.dropWhile isSpaceChar
      if base.isPrefixOf r1 then
        let r2 := r1.drop base.length
        if (r2.takeWhile isSpaceChar).isEmpty then none
        else
          match r2.dropWhile isSpaceChar with
          | 'i' :: 's' :: r3 =>
            if (r3.takeWhile isSpaceChar).isEmpty then none
            else
              let r4 := r3.dropWhile isSpaceChar
              if gui.isPrefixOf r4 then
                match r4.drop gui.length with
                | [] => some ((), [])
                | d :: r6 => if isWordChar d then none else some ((), d :: r6)
              else none
          | _ => none
      else none
  else none

/-- re.search(rf'^style\s+{base}\s+is\s+{gui_variant}\b', doc, re.MULTILINE). -/
def hasStyleIsDecl (base gui : List Char) (doc : List Char) : Bool :=
  !(anchoredScan (matchStyleIsAt base gui) doc).isEmpty

/-- test_no_base_style_inherits_from_own_gui_variant: the table entries
whose hazardous declaration is present in the style document. -/
def recursiveStyleViolations (doc : List Char) : List (List Char × List Char) :=
  baseToGui.filter (fun p => hasStyleIsDecl p.1 p.2 doc)

/-- The KNOWN_VARIABLES set of TestTextInterpolation. -/
def knownVariables : List (List Char) :=
  ["player_name", "trust_elara", "trust_kael", "trust_sirin",
   "knowledge", "duty", "freedom", "power", "true_route",
   "renpy", "config", "gui", "persistent",
   "count", "page", "eid", "ename", "etheme", "slot",
   "screen_name", "lang"].map String.data

/-- The (\.\w+)* part of MODIFIER_PATTERN: consume dotted word segments. -/
def dotGroupsAux : Nat → List Char → List Char
  | 0, l => l
  | fuel + 1, l =>
    match l with
    | '.' :: r =>
      if (r.takeWhile isWordChar).isEmpty then l
      else dotGroupsAux fuel (r.dropWhile isWordChar)
    | _ => l

/-- The optional (?:![a-z]+)? part of MODIFIER_PATTERN. -/
def bangGroup (l : List Char) : List Char :=
  match l with
  | '!' :: r => if (r.takeWhile Char.isLower).isEmpty then l else r.dropWhile Char.isLower
  | _ => l

/-- Matcher for MODIFIER_PATTERN
\[([a-zA-Z_]\w*(?:\.\w+)*)(?:![a-z]+)?\] at the current position.
Returns the root of the interpolation (the capture up to the first dot),
which is all the validator uses. -/
def matchModifierAt (l : List Char) : Option (List Char × List Char) :=
  match l with
  | '[' :: c0 :: r0 =>
    if c0.isAlpha || c0 == '_' then
      let root := c0 :: r0.takeWhile isWordChar
      match bangGroup (dotGroupsAux r0.length (r0.dropWhile isWordChar)) with
      | ']' :: r3 => some (root, r3)
      | _ => none
    else none
  | _ => none

/-- _extract_interpolations: the roots of all MODIFIER_PATTERN matches. -/
def interpolationRoots (content : List Char) : List (List Char) :=
  plainScan matchModifierAt content

/-- Matcher for \[[A-Z][a-zA-Z_]*\] at the current position (the inner
pattern of the suspicious-string regex). -/
def matchCapBracketAt (l : List Char) : Option (Unit × List Char) :=
  match l with
  | '[' :: c :: r =>
    if c.isUpper then
      match r.dropWhile (fun d => d.isAlpha || d == '_') with
      | ']' :: r2 => some ((), r2)
      | _ => none
    else none
  | _ => none

def containsCapBracket (content : List Char) : Bool :=
  !(plainScan matchCapBracketAt content).isEmpty

/-- Matcher for the suspicious-string pattern
"([^"]*\[[A-Z][a-zA-Z_]*\][^"]*)" at a double quote: the capture is the
text up to the next double quote, and the match succeeds when that text
contains a capitalised bracket interpolation. -/
def matchSuspiciousAt (l : List Char) : Option (List Char × List Char) :=
  match l with
  | '"' :: r0 =>
    let content := r0.takeWhile (fun c => !(c == '"'))
    match r0.dropWhile (fun c => !(c == '"')) with
    | '"' :: r1 => if containsCapBracket content then some (content, r1) else none
    | _ => none
  | _ => none

def suspiciousStrings (doc : List Char) : List (List Char) :=
  plainScan matchSuspiciousAt doc

/-- A root is flagged by
test_no_undefined_capitalised_variables_in_screen_text when its first
character is upper case and its lower-cased form is not a known variable. -/
def flaggedRoot (root : List Char) : Bool :=
  (match root with | c :: _ => c.isUpper | [] => false) &&
    decide ((root.map Char.toLower) ∉ knownVariables)

/-- Whether test_no_undefined_capitalised_variables_in_screen_text fails
on the document: some quoted string containing a capitalised bracket has a
flagged interpolation root. -/
def screensInterpolationFlags (doc : List Char) : Bool :=
  (suspiciousStrings doc).any (fun content =>
    !((interpolationRoots content).filter flaggedRoot).isEmpty)

/-- Matcher for the gallery pattern (?<!\[)\[(?!prefix_)[A-Z][a-zA-Z]*\]
at the current position, with the previous character supplied for the
negative lookbehind. -/
def matchGalleryBadAt (prev : Option Char) (l : List Char) :
    Option (List Char × List Char) :=
  match l with
  | '[' :: r0 =>
    if prev == some '[' then none
    else if "prefix_".data.isPrefixOf r0 then none
    else
      match r0 with
      | c :: r1 =>
        if c.isUpper then
          let w := r1.takeWhile Char.isAlpha
          match r1.dropWhile Char.isAlpha with
          | ']' :: r2 => some ('[' :: c :: (w ++ [']']), r2)
          | _ => none
        else none
      | [] => none
  | _ => none

def galleryScanAux : Nat → Option Char → List Char → List (List Char)
  | 0, _, _ => []
  | _ + 1, _, [] => []
  | fuel + 1, prev, c :: rest =>
    match matchGalleryBadAt prev (c :: rest) with
    | some (m, r) => m :: galleryScanAux fuel (some ']') r
    | none => galleryScanAux fuel (some c) rest

/-- test_no_bare_capital_interpolation_in_gallery: all unescaped
capitalised bracket interpolations found in the gallery text. -/
def galleryBadRefs (l : List Char) : List (List Char) :=
  galleryScanAux l.length none l

/-- The end offset of a block: the start offset of the next label start,
or the document length when there is none. -/
def nextEnd (totalLen : Nat) : List (Nat × List Char) → Nat
  | [] => totalLen
  | (q, _) :: _ => q

/-- Attach to every label start the start offset of the next label, or the
document length for the last one, mirroring the block partitioner. -/
def attachEnds (totalLen : Nat) : List (Nat × List Char) → List (List Char × Nat × Nat)
  | [] => []
  | (p, n) :: rest => (n, p, nextEnd totalLen rest) :: attachEnds totalLen rest

/-- The label blocks of a document: (name, start, end) with consecutive
label starts as boundaries. -/
def labelBlocks (s : List Char) : List (List Char × Nat × Nat) :=
  attachEnds s.length (labelStartsOf s)

/-- The text slice script[start:end] of a block. -/
def blockSlice (s : List Char) (b : List Char × Nat × Nat) : List Char :=
  (s.drop b.2.1).take (b.2.2 - b.2.1)

/-- The start offset of the first label definition (document length when
there is none). -/
def firstLabelStart (s : List Char) : Nat :=
  match labelStartsOf s with
  | [] => s.length
  | x :: _ => x.1

/-- The labels dictionary of the partitioner: name to slice, with a later
definition of the same name overwriting an earlier one (dict assignment in
document order), hence lookup on the reversed block list. -/
def labelsDictLookup (s : List Char) (name : List Char) : Option (List Char) :=
  ((labelBlocks s).reverse.map (fun b => (b.1, blockSlice s b))).lookup name

/-- Big-endian 4-byte encoding of struct.pack('>I', n). -/
def be32 (n : Nat) : List Nat :=
  [n / 2 ^ 24 % 256, n / 2 ^ 16 % 256, n / 2 ^ 8 % 256, n % 256]

/-- One round of the CRC-32 shift-and-xor step. -/
def crc32Step (c : Nat) : Nat :=
  if c % 2 = 1 then (c / 2) ^^^ 0xEDB88320 else c / 2

def crcRounds : Nat → Nat → Nat
  | 0, c => c
  | k + 1, c => crcRounds k (crc32Step c)

/-- zlib.crc32(data) & 0xFFFFFFFF. -/
def crc32 (data : List Nat) : Nat :=
  (data.foldl (fun c b => crcRounds 8 (c ^^^ b)) 0xFFFFFFFF) ^^^ 0xFFFFFFFF

/-- The chunk helper of make_png: length, type, data, CRC of type+data. -/
def pngChunk (ctype data : List Nat) : List Nat :=
  be32 data.length ++ ctype ++ data ++ be32 (crc32 (ctype ++ data))

/-- The 8-byte PNG signature b'\x89PNG\r\n\x1a\n'. -/
def pngSig : List Nat := [0x89, 0x50, 0x4E, 0x47, 0x0D, 0x0A, 0x1A, 0x0A]

def chunkTypeIHDR : List Nat := [73, 72, 68, 82]

def chunkTypeIDAT : List Nat := [73, 68, 65, 84]

def chunkTypeIEND : List Nat := [73, 69, 78, 68]

/-- struct.pack('>IIBBBBB', width, height, 8, 6, 0, 0, 0). -/
def ihdrData (w h : Nat) : List Nat :=
  be32 w ++ be32 h ++ [8, 6, 0, 0, 0]

def rgbaBytes : Nat × Nat × Nat × Nat → List Nat
  | (r, g, b, a) => [r, g, b, a]

/-- The raw scanline data: for every row a zero filter byte followed by
the packed RGBA bytes of each pixel. -/
def pngRawData (w h : Nat) (f : Nat → Nat → Nat × Nat × Nat × Nat) : List Nat :=
  ((List.range h).map
    (fun y => 0 :: ((List.range w).map (fun x => rgbaBytes (f x y))).flatten)).flatten

/-- make_png(width, height, pixels_func), with the zlib compressor passed
as an explicit function (the external library call of the source). -/
def make_png (w h : Nat) (f : Nat → Nat → Nat × Nat × Nat × Nat)
    (compress : List Nat → List Nat) : List Nat :=
  pngSig ++ pngChunk chunkTypeIHDR (ihdrData w h) ++
    pngChunk chunkTypeIDAT (compress (pngRawData w h f)) ++
    pngChunk chunkTypeIEND []

/-- test_all_image_files_are_valid_pngs: the first 8 bytes of the file
must equal the PNG signature. -/
def validPngHeader (bytes : List Nat) : Bool :=
  bytes.take 8 == pngSig

/-- A pixel value whose four components fit in a byte, as required by
struct.pack('BBBB', r, g, b, a). -/
def byteValued (p : Nat × Nat × Nat × Nat) : Prop :=
  p.1 < 256 ∧ p.2.1 < 256 ∧ p.2.2.1 < 256 ∧ p.2.2.2 < 256

/-- A successful association-list lookup yields a member of the list. -/
theorem lookup_mem {α β : Type} [BEq α] [LawfulBEq α] {l : List (α × β)} {a : α} {b : β}
    (h : l.lookup a = some b) : (a, b) ∈ l := by
  obtain ⟨l₁, l₂, rfl, -⟩ := List.lookup_eq_some_iff.mp h
  simp

/-- getD at an index inside the list yields a member. -/
theorem getD_mem {α : Type} : ∀ (l : List α) (i : Nat) (d : α), i < l.length → l.getD i d ∈ l := by
  intro l
  induction l with
  | nil => intro i d h; simp at h
  | cons a t ih =>
    intro i d h
    cases i with
    | zero => simp
    | succ n =>
      rw [List.getD_cons_succ]
      exact List.mem_cons_of_mem _ (ih n d (by simpa using h))

/-- On a graph where every block has at least one jump target, every jump
target and every choice resolves, and the entry resolves, the walk never
returns early: it consumes its whole fuel, keeps a false termination flag
and reports the max-steps error, having visited one node per unit of fuel. -/
theorem walkLoop_saturates
    (labels : List (List Char × List Char)) (choices : List (List Char))
    (H1 : ∀ p ∈ labels, findJumpTargets p.2 ≠ [])
    (H2 : ∀ p ∈ labels, ∀ t ∈ findJumpTargets p.2, (labels.lookup t).isSome)
    (H3 : ∀ c ∈ choices, (labels.lookup c).isSome) :
    ∀ (fuel : Nat) (visited : List (List Char)) (current : List Char) (idx : Nat),
      (labels.lookup current).isSome →
      ∃ v, walkLoop labels choices fuel visited current idx = (v, false, some maxStepsMsg) ∧
        v.length = visited.length + fuel := by
  intro fuel
  induction fuel with
  | zero => intro visited current idx _; exact ⟨visited, rfl, by simp⟩
  | succ n ih =>
    intro visited current idx hcur
    obtain ⟨content, hc⟩ := Option.isSome_iff_exists.mp hcur
    have hmem : (current, content) ∈ labels := lookup_mem hc
    obtain ⟨j, js, hjs⟩ : ∃ j js, findJumpTargets content = j :: js := by
      cases hcase : findJumpTargets content with
      | nil => exact absurd hcase (H1 _ hmem)
      | cons a t => exact ⟨a, t, rfl⟩
    rw [walkLoop, hc]
    simp only [hjs]
    by_cases hcond : hasMenu content = true ∧ idx < choices.length
    · rw [if_pos hcond]
      have hnext : (labels.lookup (choices.getD idx [])).isSome :=
        H3 _ (getD_mem choices idx [] hcond.2)
      obtain ⟨v, hv, hl⟩ := ih (visited ++ [choices.getD idx []]) _ (idx + 1) hnext
      refine ⟨v, hv, ?_⟩
      simp only [List.length_append, List.length_cons, List.length_nil] at hl ⊢
      omega
    · rw [if_neg hcond]
      have hlast : (j :: js).getLast (List.cons_ne_nil j js) ∈ findJumpTargets content := by
        rw [hjs]; exact List.getLast_mem _
      have hnext := H2 _ hmem _ hlast
      obtain ⟨v, hv, hl⟩ := ih (visited ++ [(j :: js).getLast (List.cons_ne_nil j js)]) _ idx hnext
      refine ⟨v, hv, ?_⟩
      simp only [List.length_append, List.length_cons, List.length_nil] at hl ⊢
      omega

/-- C1: in a block with two or more jump statements, when the block has no
decision-point keyword or the choice sequence is exhausted, the walk moves
to the last jump target of the block in text order. -/
theorem simulate_tie_break_last_jump
    (labels : List (List Char × List Char)) (choices : List (List Char))
    (fuel : Nat) (visited : List (List Char)) (current : List Char) (idx : Nat)
    (content : List Char) (j1 j2 : List Char) (js : List (List Char))
    (hc : labels.lookup current = some content)
    (hjs : findJumpTargets content = j1 :: j2 :: js)
    (hnc : hasMenu content = false ∨ choices.length ≤ idx) :
    walkLoop labels choices (fuel + 1) visited current idx =
      walkLoop labels choices fuel
        (visited ++ [(j1 :: j2 :: js).getLast (List.cons_ne_nil j1 (j2 :: js))])
        ((j1 :: j2 :: js).getLast (List.cons_ne_nil j1 (j2 :: js))) idx := by
  have hcond : ¬(hasMenu content = true ∧ idx < choices.length) := by
    rcases hnc with h | h
    · intro hh; rw [h] at hh; exact Bool.false_ne_true hh.1
    · intro hh; omega
  rw [walkLoop, hc]
  simp only [hjs]
  rw [if_neg hcond]

/-- C2: on a graph where every block keeps jumping (a cycle with no
terminal block) the walk stops after exactly the 50-step budget, reports
the max-steps error and a false termination flag. -/
theorem simulate_step_budget
    (labels : List (List Char × List Char)) (choices : List (List Char))
    (startLabel : List Char)
    (H1 : ∀ p ∈ labels, findJumpTargets p.2 ≠ [])
    (H2 : ∀ p ∈ labels, ∀ t ∈ findJumpTargets p.2, (labels.lookup t).isSome)
    (H3 : ∀ c ∈ choices, (labels.lookup c).isSome)
    (H4 : (labels.lookup startLabel).isSome) :
    ∃ v, walkPath labels startLabel choices = (v, false, some maxStepsMsg) ∧
      v.length = 1 + maxSteps := by
  obtain ⟨v, hv, hl⟩ :=
    walkLoop_saturates labels choices H1 H2 H3 maxSteps [startLabel] startLabel 0 H4
  exact ⟨v, hv, by simpa using hl⟩

/-- A two-node cycle with no terminal block. -/
def cycleLabels : List (List Char × List Char) :=
  [("loop_a".data, "    jump loop_b\n".data), ("loop_b".data, "    jump loop_a\n".data)]

theorem simulate_step_budget_witness :
    ∃ v, walkPath cycleLabels "loop_a".data [] = (v, false, some maxStepsMsg) ∧
      v.length = 1 + maxSteps :=
  simulate_step_budget cycleLabels [] "loop_a".data (by decide) (by decide)
    (by decide) (by decide)

/-- A single block with two jump statements and no menu keyword. -/
def twoJumpLabels : List (List Char × List Char) :=
  [("fork".data, "    jump alpha\n    jump beta\n".data)]

theorem simulate_tie_break_last_jump_witness :
    walkLoop twoJumpLabels [] 1 ["fork".data] "fork".data 0 =
      walkLoop twoJumpLabels [] 0 ["fork".data, "beta".data] "beta".data 0 := by
  have h := simulate_tie_break_last_jump twoJumpLabels [] 0 ["fork".data] "fork".data 0
    ("    jump alpha\n    jump beta\n".data) ("alpha".data) ("beta".data) []
    (by decide) (by decide) (Or.inl (by decide))
  exact h.trans (by decide)

/-- C8: reaching an undefined label returns the accumulated visited
sequence unchanged, a false termination flag and an error naming the
unresolved node; reaching a block with no jump targets returns the visited
sequence with no error and a termination flag equal to the presence of a
return marker in the block. -/
theorem simulate_error_reporting
    (labels : List (List Char × List Char)) (choices : List (List Char))
    (fuel : Nat) (visited : List (List Char)) (current : List Char) (idx : Nat) :
    (labels.lookup current = none →
      walkLoop labels choices (fuel + 1) visited current idx =
        (visited, false, some (labelNotFoundMsg current))) ∧
    (∀ content, labels.lookup current = some content →
      findJumpTargets content = [] →
      walkLoop labels choices (fuel + 1) visited current idx =
        (visited, hasReturnMarker content, none)) := by
  constructor
  · intro h; rw [walkLoop, h]
  · intro content h hj; rw [walkLoop, h]; simp only [hj]

/-- A block without jump targets but with a return marker. -/
def returnOnlyLabels : List (List Char × List Char) :=
  [("finale".data, "    scene end\n    return\n".data)]

theorem simulate_error_reporting_witness :
    walkLoop returnOnlyLabels [] 5 ["finale".data] "finale".data 0 =
      (["finale".data], true, none) ∧
    walkLoop returnOnlyLabels [] 5 ["ghost".data] "ghost".data 0 =
      (["ghost".data], false, some (labelNotFoundMsg "ghost".data)) := by
  constructor
  · have h := (simulate_error_reporting returnOnlyLabels [] 4 ["finale".data]
      "finale".data 0).2 ("    scene end\n    return\n".data) (by decide) (by decide)
    exact h.trans (by decide)
  · exact (simulate_error_reporting returnOnlyLabels [] 4 ["ghost".data]
      "ghost".data 0).1 (by decide)

/-- C3: for each reference kind the violation set of the label-integrity
check is exactly the set difference of references (after removing the
call stop-list) and label definitions: it is empty precisely when every
reference has a matching definition, and a reference without a definition
always appears in it. -/
theorem reference_closure (t : List Char) :
    (∀ w, w ∈ missingJumpTargets t ↔ w ∈ findJumpTargets t ∧ w ∉ definedLabelNames t) ∧
    (missingJumpTargets t = [] ↔ ∀ w ∈ findJumpTargets t, w ∈ definedLabelNames t) ∧
    (∀ w, w ∈ missingCallTargets t ↔ w ∈ callTargets t ∧ w ∉ definedLabelNames t) ∧
    (missingCallTargets t = [] ↔ ∀ w ∈ callTargets t, w ∈ definedLabelNames t) := by
  refine ⟨?_, ?_, ?_, ?_⟩
  · intro w
    simp [missingJumpTargets, List.mem_filter]
  · simp only [missingJumpTargets, List.filter_eq_nil_iff, decide_eq_true_eq, not_not]
  · intro w
    simp [missingCallTargets, List.mem_filter]
  · simp only [missingCallTargets, List.filter_eq_nil_iff, decide_eq_true_eq, not_not]

/-- A block whose only jump occurrence is embedded in a longer word:
the graph builder extracts a jump edge from it, but the word-boundary
search of the dead-end check does not see it. -/
def sentinelBlock : List Char := "highjump exit_label\n".data

/-- C5 counterexample: this block has an extracted jump target yet the
dead-end check flags it, refuting the claimed equivalence between the flag
and having zero outgoing jump edges. -/
theorem dead_end_check_counterexample :
    deadEndFlag sentinelBlock = true ∧
      findJumpTargets sentinelBlock = ["exit_label".data] := by decide

/-- Whenever the word-boundary search for a jump statement succeeds, the
jump-target extraction finds at least one target: both scan the same text
and the word-boundary matcher only adds a constraint. -/
theorem wbJump_implies_target :
    ∀ (fuel : Nat) (prev : Option Char) (l : List Char),
      wbJumpAux fuel prev l = true → plainScanAux matchJumpAt fuel l ≠ [] := by
  intro fuel
  induction fuel with
  | zero => intro prev l h; simp [wbJumpAux] at h
  | succ n ih =>
    intro prev l h
    cases l with
    | nil => simp [wbJumpAux] at h
    | cons c rest =>
      simp only [wbJumpAux, Bool.or_eq_true, Bool.and_eq_true] at h
      cases hm : matchJumpAt (c :: rest) with
      | some p =>
        obtain ⟨a, r⟩ := p
        simp [plainScanAux, hm]
      | none =>
        rcases h with ⟨-, hsome⟩ | hrec
        · rw [hm] at hsome; simp at hsome
        · simp only [plainScanAux, hm]
          exact ih (some c) rest hrec

/-- C5 amended: the dead-end check flags a block exactly when the block
has no word-boundary-anchored jump statement and no return-marker line;
since a word-boundary jump always yields an extracted jump target, every
block the check does not flag for its jump either has a target, but a
block whose only jump occurrences sit inside longer words can be flagged
despite having extracted jump edges. -/
theorem dead_end_check_amended (content : List Char) :
    (deadEndFlag content = true ↔
      hasWordBoundaryJump content = false ∧ hasReturnMarker content = false) ∧
    (hasWordBoundaryJump content = true → findJumpTargets content ≠ []) := by
  constructor
  · simp [deadEndFlag]
  · intro h
    exact wbJump_implies_target content.length none content h

theorem dead_end_check_amended_witness :
    hasWordBoundaryJump "    jump finale\n".data = true ∧
      findJumpTargets "    jump finale\n".data ≠ [] :=
  ⟨by decide, (dead_end_check_amended "    jump finale\n".data).2 (by decide)⟩

/-- C6: an entry of the base-to-gui table is reported exactly when the
line-anchored declaration `style <base> is <gui_variant>` occurs in the
style document; a document containing only `style bar is gui_bar` yields
exactly the one violation naming both identifiers, and a document where no
base style declares its own gui_ variant as parent yields none. -/
theorem style_two_cycle_detection :
    (∀ (doc : List Char) (p : List Char × List Char),
        p ∈ recursiveStyleViolations doc ↔
          p ∈ baseToGui ∧ hasStyleIsDecl p.1 p.2 doc = true) ∧
    recursiveStyleViolations "style bar is gui_bar\n".data =
      [("bar".data, "gui_bar".data)] ∧
    recursiveStyleViolations "style bar:\nstyle gui_bar is bar\n".data = [] := by
  refine ⟨?_, by decide, by decide⟩
  intro doc p
  simp [recursiveStyleViolations, List.mem_filter]

/-- A screen document whose quoted text carries an escaped interpolation:
the double left bracket is the documented escape for a literal bracket. -/
def escapedNameDoc : List Char := "    text \"[[Name]\"\n".data

/-- C7: the screen-text interpolation validator flags the escaped
`[[Name]` (its modifier pattern matches the inner bracket and `name` is
not a known variable), while the gallery validator, whose pattern has the
negative lookbehind for the escape, does not flag the escaped form and
does flag the unescaped one.  This exhibits the divergence of the
screen-text validator from the documented escape semantics. -/
theorem interpolation_escape_divergence :
    screensInterpolationFlags escapedNameDoc = true ∧
    galleryBadRefs "[[Name] unlocked".data = [] ∧
    galleryBadRefs "[Name] unlocked".data = ["[Name]".data] := by decide

/-- A successful label match decomposes the text as the matched prefix,
ending with the colon, followed by the returned rest. -/
theorem matchLabelAt_decomp {l w r : List Char} (h : matchLabelAt l = some (w, r)) :
    ∃ mid, l = mid ++ ':' :: r := by
  simp only [matchLabelAt] at h
  split at h
  case isFalse => simp at h
  case isTrue hpre =>
    split at h
    case isTrue => simp at h
    case isFalse hsp =>
      split at h
      case isTrue => simp at h
      case isFalse hw =>
        split at h
        case h_2 => simp at h
        case h_1 r4 heq =>
          simp only [Option.some.injEq, Prod.mk.injEq] at h
          obtain ⟨-, rfl⟩ := h
          have e1 : "label".data ++ l.drop 5 = l := by
            obtain ⟨t, ht⟩ := List.isPrefixOf_iff_prefix.mp hpre
            have h5 : l.drop 5 = t := by
              rw [← ht]; exact List.drop_left' (by decide)
            rw [h5, ht]
          have e2 := List.takeWhile_append_dropWhile isSpaceChar (l.drop 5)
          have e3 := List.takeWhile_append_dropWhile isWordChar
            ((l.drop 5).dropWhile isSpaceChar)
          have e4 := List.takeWhile_append_dropWhile isSpaceChar
            (((l.drop 5).dropWhile isSpaceChar).dropWhile isWordChar)
          refine ⟨"label".data ++ (l.drop 5).takeWhile isSpaceChar ++
            ((l.drop 5).dropWhile isSpaceChar).takeWhile isWordChar ++
            ((((l.drop 5).dropWhile isSpaceChar).dropWhile isWordChar).takeWhile isSpaceChar),
            ?_⟩
          conv_lhs => rw [← e1, ← e2, ← e3, ← e4, heq]
          simp [List.append_assoc]

/-- A successful label match consumes at least one character. -/
theorem matchLabelAt_length {l w r : List Char} (h : matchLabelAt l = some (w, r)) :
    r.length < l.length := by
  obtain ⟨mid, hm⟩ := matchLabelAt_decomp h
  rw [hm]
  simp [List.length_append]
  omega

/-- Every offset emitted by the label scanner is at least the current
scan position. -/
theorem labelScanAux_le :
    ∀ (fuel : Nat) (l : List Char) (pos : Nat) (st : Bool) (x : Nat × List Char),
      x ∈ labelScanAux fuel l pos st → pos ≤ x.1 := by
  intro fuel
  induction fuel with
  | zero => intro l pos st x hx; simp [labelScanAux] at hx
  | succ n ih =>
    intro l pos st x hx
    cases l with
    | nil => simp [labelScanAux] at hx
    | cons c rest =>
      rw [labelScanAux] at hx
      cases st with
      | false =>
        rw [if_neg (by simp)] at hx
        have := ih rest (pos + 1) (c == '\n') x hx
        omega
      | true =>
        rw [if_pos rfl] at hx
        cases hm : matchLabelAt (c :: rest) with
        | none =>
          rw [hm] at hx
          have := ih rest (pos + 1) (c == '\n') x hx
          omega
        | some q =>
          obtain ⟨w, r⟩ := q
          rw [hm] at hx
          rcases List.mem_cons.mp hx with rfl | hx'
          · exact Nat.le_refl _
          · have := ih r (pos + ((c :: rest).length - r.length)) false x hx'
            omega

/-- Every offset emitted by the label scanner lies inside the scanned
suffix: offset + 1 is at most scan position + remaining length. -/
theorem labelScanAux_lt :
    ∀ (fuel : Nat) (l : List Char) (pos : Nat) (st : Bool) (x : Nat × List Char),
      x ∈ labelScanAux fuel l pos st → x.1 + 1 ≤ pos + l.length := by
  intro fuel
  induction fuel with
  | zero => intro l pos st x hx; simp [labelScanAux] at hx
  | succ n ih =>
    intro l pos st x hx
    cases l with
    | nil => simp [labelScanAux] at hx
    | cons c rest =>
      rw [labelScanAux] at hx
      cases st with
      | false =>
        rw [if_neg (by simp)] at hx
        have := ih rest (pos + 1) (c == '\n') x hx
        simp only [List.length_cons]
        omega
      | true =>
        rw [if_pos rfl] at hx
        cases hm : matchLabelAt (c :: rest) with
        | none =>
          rw [hm] at hx
          have := ih rest (pos + 1) (c == '\n') x hx
          simp only [List.length_cons]
          omega
        | some q =>
          obtain ⟨w, r⟩ := q
          rw [hm] at hx
          rcases List.mem_cons.mp hx with rfl | hx'
          · simp
          · have h1 := ih r (pos + ((c :: rest).length - r.length)) false x hx'
            have h2 := matchLabelAt_length hm
            simp only [List.length_cons] at h1 h2 ⊢
            omega

/-- The offsets emitted by the label scanner are strictly increasing. -/
theorem labelScanAux_chain :
    ∀ (fuel : Nat) (l : List Char) (pos : Nat) (st : Bool),
      List.Chain' (fun a b : Nat × List Char => a.1 < b.1) (labelScanAux fuel l pos st) := by
  intro fuel
  induction fuel with
  | zero => intro l pos st; simp [labelScanAux]
  | succ n ih =>
    intro l pos st
    cases l with
    | nil => simp [labelScanAux]
    | cons c rest =>
      rw [labelScanAux]
      cases st with
      | false => rw [if_neg (by simp)]; exact ih rest (pos + 1) (c == '\n')
      | true =>
        rw [if_pos rfl]
        cases hm : matchLabelAt (c :: rest) with
        | none => exact ih rest (pos + 1) (c == '\n')
        | some q =>
          obtain ⟨w, r⟩ := q
          rw [List.chain'_cons']
          refine ⟨?_, ih r (pos + ((c :: rest).length - r.length)) false⟩
          intro y hy
          have hmem := List.mem_of_mem_head? hy
          have h1 := labelScanAux_le n r (pos + ((c :: rest).length - r.length)) false y hmem
          have h2 := matchLabelAt_length hm
          show pos < y.1
          simp only [List.length_cons] at h1 h2
          omega

/-- Line-anchoredness of the label scanner: every emitted offset is the
start of the document or directly preceded by a newline character.  The
invariant relates the scan flag to the already-consumed prefix. -/
theorem labelScanAux_anchored :
    ∀ (fuel : Nat) (l consumed : List Char) (st : Bool),
      (st = true ↔ (consumed = [] ∨ consumed.getLast? = some '\n')) →
      ∀ p name, (p, name) ∈ labelScanAux fuel l consumed.length st →
        p = 0 ∨ (consumed ++ l)[p - 1]? = some '\n' := by
  intro fuel
  induction fuel with
  | zero => intro l consumed st hst p name hx; simp [labelScanAux] at hx
  | succ n ih =>
    intro l consumed st hst p name hx
    cases l with
    | nil => simp [labelScanAux] at hx
    | cons c rest =>
      rw [labelScanAux] at hx
      cases st with
      | false =>
        rw [if_neg (by simp)] at hx
        have hx' : (p, name) ∈ labelScanAux n rest (consumed ++ [c]).length (c == '\n') := by
          simpa using hx
        have hst' : (c == '\n') = true ↔
            ((consumed ++ [c]) = [] ∨ (consumed ++ [c]).getLast? = some '\n') := by
          simp [List.getLast?_concat]
        have := ih rest (consumed ++ [c]) (c == '\n') hst' p name hx'
        simpa using this
      | true =>
        rw [if_pos rfl] at hx
        cases hm : matchLabelAt (c :: rest) with
        | none =>
          rw [hm] at hx
          have hx' : (p, name) ∈ labelScanAux n rest (consumed ++ [c]).length (c == '\n') := by
            simpa using hx
          have hst' : (c == '\n') = true ↔
              ((consumed ++ [c]) = [] ∨ (consumed ++ [c]).getLast? = some '\n') := by
            simp [List.getLast?_concat]
          have := ih rest (consumed ++ [c]) (c == '\n') hst' p name hx'
          simpa using this
        | some q =>
          obtain ⟨w, r⟩ := q
          rw [hm] at hx
          rcases List.mem_cons.mp hx with heq | hx'
          · obtain ⟨rfl, rfl⟩ : p = consumed.length ∧ name = w := by
              simpa [Prod.ext_iff] using heq
            rcases hst.mp rfl with hc | hlast
            · left; simp [hc]
            · right
              have hne : consumed ≠ [] := by
                intro h0; rw [h0] at hlast; simp at hlast
              have hlen : 0 < consumed.length := List.length_pos.mpr hne
              rw [List.getElem?_append_left (by omega)]
              rw [List.getLast?_eq_getElem?] at hlast
              exact hlast
          · obtain ⟨mid, hmid⟩ := matchLabelAt_decomp hm
            have hlen2 : (consumed ++ (mid ++ [':'])).length =
                consumed.length + ((c :: rest).length - r.length) := by
              have hcr : (c :: rest).length = mid.length + 1 + r.length := by
                rw [hmid]; simp [List.length_append]; omega
              simp only [List.length_append, List.length_cons, List.length_nil] at hcr ⊢
              omega
            have hx'' : (p, name) ∈
                labelScanAux n r (consumed ++ (mid ++ [':'])).length false := by
              rw [hlen2]; exact hx'
            have hst'' : (false = true) ↔
                ((consumed ++ (mid ++ [':'])) = [] ∨
                  (consumed ++ (mid ++ [':'])).getLast? = some '\n') := by
              constructor
              · intro hh; exact absurd hh (by simp)
              · intro hh
                rcases hh with hh | hh
                · simp at hh
                · rw [show consumed ++ (mid ++ [':']) = (consumed ++ mid) ++ [':'] by
                      simp [List.append_assoc]] at hh
                  rw [List.getLast?_concat] at hh
                  simp at hh
            have hres := ih r (consumed ++ (mid ++ [':'])) false hst'' p name hx''
            have harr : (consumed ++ (mid ++ [':'])) ++ r = consumed ++ (c :: rest) := by
              rw [hmid]; simp [List.append_assoc]
            rwa [harr] at hres

/-- Block chaining: consecutive blocks share their boundary offset and
their starts strictly increase. -/
theorem attachEnds_chain :
    ∀ (totalLen : Nat) (ps : List (Nat × List Char)),
      List.Chain' (fun a b : Nat × List Char => a.1 < b.1) ps →
      List.Chain' (fun a b : List Char × Nat × Nat => a.2.2 = b.2.1 ∧ a.2.1 < b.2.1)
        (attachEnds totalLen ps) := by
  intro totalLen ps
  induction ps with
  | nil => intro _; simp [attachEnds]
  | cons x rest ih =>
    obtain ⟨p, nm⟩ := x
    intro hch
    rw [List.chain'_cons'] at hch
    obtain ⟨hhead, htail⟩ := hch
    rw [attachEnds, List.chain'_cons']
    refine ⟨?_, ih htail⟩
    intro y hy
    cases rest with
    | nil => simp [attachEnds] at hy
    | cons q t =>
      obtain ⟨qp, qn⟩ := q
      rw [attachEnds, List.head?_cons] at hy
      rw [Option.mem_def, Option.some.injEq] at hy
      subst hy
      exact ⟨rfl, hhead (qp, qn) (by simp)⟩

/-- Every block has a strictly larger end than start and ends within the
document. -/
theorem attachEnds_bounds :
    ∀ (totalLen : Nat) (ps : List (Nat × List Char)),
      (∀ x ∈ ps, x.1 + 1 ≤ totalLen) →
      List.Chain' (fun a b : Nat × List Char => a.1 < b.1) ps →
      ∀ b ∈ attachEnds totalLen ps, b.2.1 < b.2.2 ∧ b.2.2 ≤ totalLen := by
  intro totalLen ps
  induction ps with
  | nil => intro _ _ b hb; simp [attachEnds] at hb
  | cons x rest ih =>
    obtain ⟨p, nm⟩ := x
    intro hbound hch b hb
    rw [List.chain'_cons'] at hch
    obtain ⟨hhead, htail⟩ := hch
    rw [attachEnds] at hb
    rcases List.mem_cons.mp hb with rfl | hb'
    · cases rest with
      | nil =>
        have := hbound (p, nm) (by simp)
        constructor
        · show p < totalLen; omega
        · exact Nat.le_refl _
      | cons q t =>
        obtain ⟨qp, qn⟩ := q
        have h1 : p < qp := hhead (qp, qn) (by simp)
        have h2 : qp + 1 ≤ totalLen := hbound (qp, qn) (by simp)
        refine ⟨?_, ?_⟩
        · show p < nextEnd totalLen ((qp, qn) :: t)
          simpa [nextEnd] using h1
        · show nextEnd totalLen ((qp, qn) :: t) ≤ totalLen
          simp only [nextEnd]
          omega
    · exact ih (fun y hy => hbound y (List.mem_cons_of_mem _ hy)) htail b hb'

/-- Coverage: the concatenation of the block slices is the document from
the first label start to the end. -/
theorem attachEnds_cover :
    ∀ (s : List Char) (ps : List (Nat × List Char)),
      List.Chain' (fun a b : Nat × List Char => a.1 < b.1) ps →
      ((attachEnds s.length ps).map (blockSlice s)).flatten =
        (match ps with | [] => ([] : List Char) | x :: _ => s.drop x.1) := by
  intro s ps
  induction ps with
  | nil => intro _; simp [attachEnds]
  | cons x rest ih =>
    obtain ⟨p, nm⟩ := x
    intro hch
    rw [List.chain'_cons'] at hch
    obtain ⟨hhead, htail⟩ := hch
    cases rest with
    | nil =>
      simp only [attachEnds, List.map_cons, List.map_nil, List.flatten_cons,
        List.flatten_nil, List.append_nil]
      show (s.drop p).take (s.length - p) = s.drop p
      rw [← List.length_drop, List.take_length]
    | cons q t =>
      obtain ⟨qp, qn⟩ := q
      have hpq : p < qp := hhead (qp, qn) (by simp)
      have hrest := ih htail
      simp only [attachEnds, List.map_cons, List.flatten_cons] at hrest ⊢
      rw [hrest]
      show (s.drop p).take (qp - p) ++ s.drop qp = s.drop p
      have hdd : (s.drop p).drop (qp - p) = s.drop qp := by
        rw [List.drop_drop]
        congr 1
        omega
      calc (s.drop p).take (qp - p) ++ s.drop qp
          = (s.drop p).take (qp - p) ++ (s.drop p).drop (qp - p) := by rw [hdd]
        _ = s.drop p := List.take_append_drop _ _

/-- The final block always ends at the document length. -/
theorem attachEnds_last :
    ∀ (totalLen : Nat) (ps : List (Nat × List Char)) (h : attachEnds totalLen ps ≠ []),
      ((attachEnds totalLen ps).getLast h).2.2 = totalLen := by
  intro totalLen ps
  induction ps with
  | nil => intro h; simp [attachEnds] at h
  | cons x rest ih =>
    obtain ⟨p, nm⟩ := x
    intro h
    cases rest with
    | nil => simp [attachEnds, nextEnd, List.getLast]
    | cons q t =>
      obtain ⟨qp, qn⟩ := q
      have hne : attachEnds totalLen ((qp, qn) :: t) ≠ [] := by
        rw [attachEnds]; simp
      have hgl : ((nm, p, qp) :: attachEnds totalLen ((qp, qn) :: t)).getLast
          (List.cons_ne_nil _ _) =
          (attachEnds totalLen ((qp, qn) :: t)).getLast hne := List.getLast_cons hne
      show ((nm, p, qp) :: attachEnds totalLen ((qp, qn) :: t)).getLast h |>.2.2 = totalLen
      rw [hgl]
      exact ih hne

/-- C9: the label-block partition has strictly increasing, non-overlapping
offsets — each block ends where the next starts and the last ends at the
document length; the slices exactly cover the document from the first
label definition to the end of file, excluding the lead-in text; and every
label name resolves to exactly one slice in the labels dictionary. -/
theorem label_block_partition (s : List Char) :
    List.Chain' (fun a b : List Char × Nat × Nat => a.2.2 = b.2.1 ∧ a.2.1 < b.2.1)
      (labelBlocks s) ∧
    (∀ b ∈ labelBlocks s, b.2.1 < b.2.2 ∧ b.2.2 ≤ s.length) ∧
    ((labelBlocks s).map (blockSlice s)).flatten = s.drop (firstLabelStart s) ∧
    (∀ h : labelBlocks s ≠ [], ((labelBlocks s).getLast h).2.2 = s.length) ∧
    (∀ n b₁ b₂, labelsDictLookup s n = some b₁ → labelsDictLookup s n = some b₂ →
      b₁ = b₂) := by
  have hch : List.Chain' (fun a b : Nat × List Char => a.1 < b.1) (labelStartsOf s) :=
    labelScanAux_chain s.length s 0 true
  refine ⟨attachEnds_chain _ _ hch, ?_, ?_, attachEnds_last _ _, ?_⟩
  · refine attachEnds_bounds _ _ ?_ hch
    intro x hx
    have := labelScanAux_lt s.length s 0 true x hx
    omega
  · have hc := attachEnds_cover s (labelStartsOf s) hch
    cases hls : labelStartsOf s with
    | nil =>
      rw [hls] at hc
      simp only [labelBlocks, firstLabelStart, hls]
      simpa using hc
    | cons x rest =>
      rw [hls] at hc
      simp only [labelBlocks, firstLabelStart, hls]
      simpa using hc
  · intro n b₁ b₂ h₁ h₂
    rw [h₁] at h₂
    exact Option.some.inj h₂

/-- The synthetic document of the partition witness: lead-in text and two
label blocks. -/
def partitionExample : List Char :=
  "prologue text\nlabel alpha:\n    jump beta\nlabel beta:\n    return\n".data

theorem label_block_partition_witness :
    ((14 < 41 ∧ 41 ≤ partitionExample.length) ∧
      ((labelBlocks partitionExample).getLast (by decide)).2.2 = partitionExample.length) ∧
    "label beta:\n    return\n".data = "label beta:\n    return\n".data :=
  ⟨⟨(label_block_partition partitionExample).2.1 ("alpha".data, 14, 41) (by decide),
    (label_block_partition partitionExample).2.2.2.1 (by decide)⟩,
   (label_block_partition partitionExample).2.2.2.2 "beta".data _ _ (by decide) (by decide)⟩

/-- A dialogue line whose only occurrence of the jump keyword is mid-line
inside a quoted string. -/
def dialogueLine : List Char := "    mc \"jump hidden_label\"\n".data

/-- C4 counterexample: the jump-target extraction picks up a target whose
jump keyword occurs mid-line inside quoted dialogue, refuting the claim
that extraction only recognises line-initial keywords. -/
theorem keyword_anchoring_counterexample :
    "hidden_label".data ∈ findJumpTargets dialogueLine := by decide

/-- C4 amended: label definitions are extracted only at line starts (the
offset of every extracted label is 0 or directly preceded by a newline,
with no leading whitespace allowed), while jump targets are extracted
wherever the jump keyword occurs, including mid-line inside quoted
dialogue. -/
theorem keyword_anchoring_amended :
    (∀ (s : List Char) (p : Nat) (name : List Char),
        (p, name) ∈ labelStartsOf s → p = 0 ∨ s[p - 1]? = some '\n') ∧
    findJumpTargets dialogueLine = ["hidden_label".data] := by
  constructor
  · intro s p name hmem
    have h := labelScanAux_anchored s.length s [] true (by simp) p name hmem
    simpa using h
  · decide

theorem keyword_anchoring_amended_witness :
    ((0, "intro".data) ∈ labelStartsOf "label intro:\n".data) ∧
      ((0 : Nat) = 0 ∨ ("label intro:\n".data)[(0 : Nat) - 1]? = some '\n') :=
  ⟨by decide, keyword_anchoring_amended.1 "label intro:\n".data 0 "intro".data (by decide)⟩

/-- C10: for every width, height, pixel function and compressor, the byte
string produced by make_png begins with the exact 8-byte PNG signature and
ends with the IEND chunk, so every generated asset passes the checker's
signature test. -/
theorem make_png_format (w h : Nat) (f : Nat → Nat → Nat × Nat × Nat × Nat)
    (compress : List Nat → List Nat)
    (_hf : ∀ x y, byteValued (f x y)) :
    (make_png w h f compress).take 8 = pngSig ∧
    (pngChunk chunkTypeIEND []).IsSuffix (make_png w h f compress) ∧
    validPngHeader (make_png w h f compress) = true := by
  have h1 : (make_png w h f compress).take 8 = pngSig := rfl
  refine ⟨h1, ⟨pngSig ++ pngChunk chunkTypeIHDR (ihdrData w h) ++
    pngChunk chunkTypeIDAT (compress (pngRawData w h f)), rfl⟩, ?_⟩
  show ((make_png w h f compress).take 8 == pngSig) = true
  rw [h1]
  simp

theorem make_png_format_witness :
    (∀ x y : Nat, byteValued ((fun _ _ => ((20, 20, 30, 200) : Nat × Nat × Nat × Nat)) x y)) ∧
    validPngHeader (make_png 2 2 (fun _ _ => (20, 20, 30, 200)) id) = true :=
  ⟨fun _ _ => show 20 < 256 ∧ 20 < 256 ∧ 30 < 256 ∧ 200 < 256 by decide,
   (make_png_format 2 2 (fun _ _ => (20, 20, 30, 200)) id
     (fun _ _ => show 20 < 256 ∧ 20 < 256 ∧ 30 < 256 ∧ 200 < 256 by decide)).2.2⟩

end VN
